import Mathlib

/-!
# The fifo-v1 barrier engine of wlroots (`types/wlr_fifo_v1.c`)

A shallow embedding of the per-surface barrier engine: the commit queue, the
`barrier_set` flag, the output binding with its two listeners, and the
handlers that the event loop dispatches.

Conventions of the embedding.

* Pointers that are only tested against `NULL` are booleans (`surface->buffer`,
  `surface->pending.buffer`) or `Option`s (`fifo->output`).
* The `wl_list` of `struct fifo_commit` is a `List`, head first; the list is
  appended to at the tail (`wl_list_insert(fifo->commits.prev, ..)`) and walked
  from the head (`wl_list_for_each_safe`).
* A `wl_listener` is represented by whether its link currently sits in a
  signal's listener list.  `wl_list_remove` on a link that sits in no list
  dereferences a null pointer; handlers that can do so return `Option`, with
  `none` standing for that undefined execution.
* Calls into collaborators (`wlr_surface_unlock_cached`,
  `wlr_surface_lock_pending`, `wl_client_post_no_memory`,
  `wl_event_source_timer_update`, the destroy signal) are recorded, in program
  order, as a list of `Event`s returned next to the new state.
* `wlr_surface_unlock_cached` may, inside the compositor, finalize the commit
  it unlocks; that finalize (the state move and `fifo_handle_commit`) is a
  dispatch of its own here, `surface_commit`, not a part of the function that
  made the unlock call.
* The surface defers a locked commit and finalizes it once unlocked; these are
  the dispatches `surface_cache_pending` and `surface_commit_cached`.
* The manager is a map from surface ids to what the surface's addon set holds
  for the fifo addon; `get_fifo`, the destruction of an engine's resource and
  the dispatches to an engine act on it (`manager_step`).
* `uint32_t` sequence numbers are naturals; `int64_t` millisecond clocks and
  the `int32_t` refresh rate are integers.  `1000000 / refresh` is C integer
  division, which truncates toward zero (`Int.tdiv`).  The handlers do no
  other arithmetic than one subtraction of two clock readings.
-/

namespace Fifo

/-- The `struct fifo_commit`: one queued commit. -/
structure fifo_commit where
  barrier_pending : Bool
  seq : Nat
deriving DecidableEq, Repr

/-- The `struct wlr_fifo_v1_fifo_state`: the double-buffered request flags. -/
structure wlr_fifo_v1_fifo_state where
  set_barrier : Bool
  wait_barrier : Bool
deriving DecidableEq, Repr

/-- The fields of `struct wlr_surface` that the engine reads:
`surface->buffer != NULL`, `surface->pending.committed & WLR_SURFACE_STATE_BUFFER`
and `surface->pending.buffer != NULL`. -/
structure wlr_surface where
  buffer : Bool
  pending_committed_buffer : Bool
  pending_buffer : Bool
deriving DecidableEq, Repr

/-- The field of `struct wlr_output` that the engine reads: `refresh`, in mHz
(an `int32_t`, zero when unknown). -/
structure wlr_output where
  refresh : Int
deriving DecidableEq, Repr

/-- The `struct wlr_fifo_v1`, without the handles that carry no engine state
(resource, addon, manager). `output_commit_linked` and
`output_destroy_linked` say whether the link of the `output_commit` and
`output_destroy` listener sits in a signal's list; `surface_occluded_timer`
says whether the timer source is non-null. -/
structure wlr_fifo_v1 where
  surface : wlr_surface
  output : Option wlr_output
  current : wlr_fifo_v1_fifo_state
  pending : wlr_fifo_v1_fifo_state
  output_commit_linked : Bool
  output_destroy_linked : Bool
  barrier_set : Bool
  last_output_commit_msec : Int
  surface_occluded_timer : Bool
  commits : List fifo_commit
deriving DecidableEq, Repr

/-- Calls into collaborators, in program order. -/
inductive Event where
  | unlock_cached (seq : Nat)
  | lock_pending (seq : Nat)
  | post_no_memory
  | timer_update (ms_delay : Int)
  | emit_destroy
  | timer_remove
  | post_error_already_exists
  | emit_new_fifo
deriving DecidableEq, Repr

/-- The sequence numbers passed to `wlr_surface_unlock_cached` in a trace. -/
def unlocked : List Event → List Nat
  | [] => []
  | Event.unlock_cached s :: es => s :: unlocked es
  | _ :: es => unlocked es

/-- The sequence numbers obtained from `wlr_surface_lock_pending` in a trace. -/
def locked : List Event → List Nat
  | [] => []
  | Event.lock_pending s :: es => s :: locked es
  | _ :: es => locked es

/-- The zero-initialised `struct wlr_fifo_v1_fifo_state`. -/
def fifo_state_zero : wlr_fifo_v1_fifo_state :=
  { set_barrier := false, wait_barrier := false }

/-- The function `surface_synced_move_state (dst, src)`: returns the new
`(dst, src)`. -/
def surface_synced_move_state (_dst src : wlr_fifo_v1_fifo_state) :
    wlr_fifo_v1_fifo_state × wlr_fifo_v1_fifo_state :=
  ({ set_barrier := src.set_barrier, wait_barrier := src.wait_barrier },
   { set_barrier := false, wait_barrier := false })

/-- The function `commit_on_valid_buffer`. -/
def commit_on_valid_buffer (surface : wlr_surface) : Bool :=
  if !surface.buffer || (surface.pending_committed_buffer && !surface.pending_buffer) then
    false
  else
    true

/-- The loop of `fifo_signal_barrier` over the queue, head first: returns the
entries left in the list, the unlock calls made, and the local
`barrier_pending`. -/
def fifo_signal_barrier_loop : List fifo_commit → List fifo_commit × List Event × Bool
  | [] => ([], [], false)
  | commit :: rest =>
    if commit.barrier_pending then
      (rest, [Event.unlock_cached commit.seq], true)
    else
      let r := fifo_signal_barrier_loop rest
      (r.1, Event.unlock_cached commit.seq :: r.2.1, r.2.2)

/-- The function `fifo_signal_barrier` (Release). -/
def fifo_signal_barrier (fifo : wlr_fifo_v1) : wlr_fifo_v1 × List Event :=
  let r := fifo_signal_barrier_loop fifo.commits
  let fifo1 := { fifo with commits := r.1 }
  if !r.2.2 then
    ({ fifo1 with barrier_set := false }, r.2.1)
  else
    (fifo1, r.2.1)

/-- The first loop of `fifo_reset`: the unlock calls made while every entry is
removed from the queue. -/
def fifo_reset_loop : List fifo_commit → List Event
  | [] => []
  | commit :: rest =>
    if commit.seq ≠ 0 then
      Event.unlock_cached commit.seq :: fifo_reset_loop rest
    else
      fifo_reset_loop rest

/-- The call `wl_list_remove(&listener.link)`: defined only when the link sits
in a list; the link is then in no list. -/
def wl_list_remove (linked : Bool) : Option Bool :=
  if linked then some false else none

/-- The function `fifo_reset` (Reset). -/
def fifo_reset (fifo : wlr_fifo_v1) : Option (wlr_fifo_v1 × List Event) :=
  let evs := fifo_reset_loop fifo.commits
  let fifo1 := { fifo with commits := [] }
  let unlinked : Option wlr_fifo_v1 :=
    if fifo1.output.isSome then
      match wl_list_remove fifo1.output_commit_linked with
      | none => none
      | some l1 =>
        match wl_list_remove fifo1.output_destroy_linked with
        | none => none
        | some l2 =>
          some { fifo1 with output_commit_linked := l1, output_destroy_linked := l2 }
    else
      some fifo1
  match unlinked with
  | none => none
  | some fifo2 =>
    some ({ fifo2 with barrier_set := false,
                       current := fifo_state_zero,
                       pending := fifo_state_zero,
                       last_output_commit_msec := 0 }, evs)

/-- The function `fifo_handle_output_destroy`. -/
def fifo_handle_output_destroy (fifo : wlr_fifo_v1) : Option (wlr_fifo_v1 × List Event) :=
  match fifo_reset fifo with
  | none => none
  | some (fifo1, evs) => some ({ fifo1 with output := none }, evs)

/-- The local `refresh_msec` of `handle_timer` and of
`fifo_manager_handle_get_fifo`: the period of the bound output, or 25 ms. -/
def refresh_msec (fifo : wlr_fifo_v1) : Int :=
  match fifo.output with
  | some output => if output.refresh ≠ 0 then Int.tdiv 1000000 output.refresh else 25
  | none => 25

/-- The function `handle_timer`; `now` is the value of `get_current_time_msec()`. -/
def handle_timer (fifo : wlr_fifo_v1) (now : Int) : wlr_fifo_v1 × List Event :=
  let r :=
    if fifo.barrier_set && decide (now - fifo.last_output_commit_msec > refresh_msec fifo) then
      fifo_signal_barrier fifo
    else
      (fifo, [])
  (r.1, r.2 ++ [Event.timer_update (refresh_msec fifo)])

/-- The function `fifo_handle_output_commit`; `now` is the value of
`get_current_time_msec()`. -/
def fifo_handle_output_commit (fifo : wlr_fifo_v1) (now : Int) : wlr_fifo_v1 × List Event :=
  if !fifo.surface.buffer then
    (fifo, [])
  else
    let r := if fifo.barrier_set then fifo_signal_barrier fifo else (fifo, [])
    ({ r.1 with last_output_commit_msec := now }, r.2)

/-- The function `fifo_handle_commit`. -/
def fifo_handle_commit (fifo : wlr_fifo_v1) : wlr_fifo_v1 :=
  if fifo.current.set_barrier then { fifo with barrier_set := true } else fifo

/-- The function `fifo_do_queue_commit`. -/
def fifo_do_queue_commit (fifo : wlr_fifo_v1) : Bool :=
  fifo.pending.wait_barrier && fifo.barrier_set

/-- The function `fifo_handle_client_commit`. `calloc_ok` says whether the
allocation of the entry succeeds, `seq` is the value that
`wlr_surface_lock_pending` returns; both are consulted only on the path that
makes the call. -/
def fifo_handle_client_commit (fifo : wlr_fifo_v1) (calloc_ok : Bool) (seq : Nat) :
    wlr_fifo_v1 × List Event :=
  if !commit_on_valid_buffer fifo.surface then
    (fifo, [])
  else if fifo_do_queue_commit fifo then
    if !calloc_ok then
      (fifo, [Event.post_no_memory])
    else
      let commit : fifo_commit :=
        { barrier_pending := if fifo.pending.set_barrier then true else false, seq := seq }
      ({ fifo with commits := fifo.commits ++ [commit] }, [Event.lock_pending seq])
  else
    (fifo, [])

/-- The function `fifo_handle_wait_barrier`. -/
def fifo_handle_wait_barrier (fifo : wlr_fifo_v1) : wlr_fifo_v1 :=
  { fifo with pending := { fifo.pending with wait_barrier := true } }

/-- The function `fifo_handle_set_barrier`. -/
def fifo_handle_set_barrier (fifo : wlr_fifo_v1) : wlr_fifo_v1 :=
  { fifo with pending := { fifo.pending with set_barrier := true } }

/-- The function `fifo_handle_resource_destroy` (Destroy): the engine is freed,
so only the calls made remain. -/
def fifo_handle_resource_destroy (fifo : wlr_fifo_v1) : Option (List Event) :=
  match fifo_reset fifo with
  | none => none
  | some (fifo1, evs) =>
    some (evs ++ [Event.emit_destroy] ++
      (if fifo1.surface_occluded_timer then [Event.timer_remove] else []))

/-- The function `fifo_create`: the zero-initialised engine of `surface`, its
queue initialised empty. -/
def fifo_create (surface : wlr_surface) : wlr_fifo_v1 :=
  { surface := surface,
    output := none,
    current := fifo_state_zero,
    pending := fifo_state_zero,
    output_commit_linked := false,
    output_destroy_linked := false,
    barrier_set := false,
    last_output_commit_msec := 0,
    surface_occluded_timer := false,
    commits := [] }

/-- The function `wlr_fifo_v1_set_output`. -/
def wlr_fifo_v1_set_output (fifo : wlr_fifo_v1) (output : Option wlr_output) :
    Option (wlr_fifo_v1 × List Event) :=
  match fifo_reset fifo with
  | none => none
  | some (fifo1, evs) =>
    match output with
    | some o =>
      some ({ fifo1 with output := some o,
                         output_commit_linked := true,
                         output_destroy_linked := true }, evs)
    | none => some (fifo1, evs)

/-- The function `fifo_manager_handle_get_fifo` for one surface. `addon_found`
says whether the surface already carries an engine, `surface_output` is the
first of the surface's current outputs, `create_ok`, `synced_ok` and
`timer_ok` say whether `fifo_create`, `wlr_surface_synced_init` and
`wl_event_loop_add_timer` succeed. Returns the engine made, if any. -/
def fifo_manager_handle_get_fifo (addon_found : Bool) (surface : wlr_surface)
    (surface_output : Option wlr_output) (create_ok synced_ok timer_ok : Bool) :
    Option (Option wlr_fifo_v1 × List Event) :=
  if addon_found then
    some (none, [Event.post_error_already_exists])
  else if !create_ok then
    some (none, [Event.post_no_memory])
  else if !synced_ok then
    some (none, [Event.post_no_memory])
  else
    match wlr_fifo_v1_set_output (fifo_create surface) surface_output with
    | none => none
    | some (fifo1, evs) =>
      if !timer_ok then
        some (some fifo1, evs)
      else
        let fifo2 := { fifo1 with surface_occluded_timer := true }
        some (some fifo2, evs ++ [Event.timer_update (refresh_msec fifo2), Event.emit_new_fifo])

/-- Modelled from the spec: the commit-finalize step of the surface's
state-swap primitive (`wlr_surface_synced`, whose code is not part of the
sources): the pending flags move into `current`, pending resets to empty, and
the surface's commit signal then runs `fifo_handle_commit`. -/
def surface_commit (fifo : wlr_fifo_v1) : wlr_fifo_v1 :=
  let r := surface_synced_move_state fifo.current fifo.pending
  fifo_handle_commit { fifo with current := r.1, pending := r.2 }

/-- Modelled from the spec: a locked commit does not apply now (the caching of
the surface's state-swap primitive, whose code is not part of the sources):
its pending flags move into a cached state and pending resets to empty, while
`current` and the engine are left alone. -/
def surface_cache_pending (fifo : wlr_fifo_v1) : wlr_fifo_v1 :=
  { fifo with pending := (surface_synced_move_state fifo_state_zero fifo.pending).2 }

/-- Modelled from the spec: the commit-finalize of a commit that had been
deferred (the state-swap primitive applying a cached state once it is
unlocked, whose code is not part of the sources): the cached flags move into
`current` and the surface's commit signal then runs `fifo_handle_commit`. -/
def surface_commit_cached (fifo : wlr_fifo_v1) (cached : wlr_fifo_v1_fifo_state) :
    wlr_fifo_v1 :=
  fifo_handle_commit
    { fifo with current := (surface_synced_move_state fifo.current cached).1 }

/-- The triggers that the event loop dispatches to one engine. -/
inductive Action where
  | surface_changed (surface : wlr_surface)
  | set_barrier
  | wait_barrier
  | client_commit (calloc_ok : Bool) (seq : Nat)
  | commit
  | output_commit (now : Int)
  | timer (now : Int)
  | set_output (output : Option wlr_output)
  | output_destroy
  | cache_pending
  | commit_cached (cached : wlr_fifo_v1_fifo_state)
deriving DecidableEq, Repr

/-- One dispatch. A signal reaches its handler only while the listener is
linked, and the timer callback only runs when the timer source exists;
otherwise nothing happens. `surface_changed` is the compositor updating the
surface fields that the engine reads; `cache_pending` and `commit_cached` are
the surface deferring a locked commit and finalizing a deferred one. -/
def step (fifo : wlr_fifo_v1) : Action → Option (wlr_fifo_v1 × List Event)
  | Action.surface_changed surface => some ({ fifo with surface := surface }, [])
  | Action.set_barrier => some (fifo_handle_set_barrier fifo, [])
  | Action.wait_barrier => some (fifo_handle_wait_barrier fifo, [])
  | Action.client_commit calloc_ok seq => some (fifo_handle_client_commit fifo calloc_ok seq)
  | Action.commit => some (surface_commit fifo, [])
  | Action.output_commit now =>
    if fifo.output_commit_linked then some (fifo_handle_output_commit fifo now)
    else some (fifo, [])
  | Action.timer now =>
    if fifo.surface_occluded_timer then some (handle_timer fifo now) else some (fifo, [])
  | Action.set_output output => wlr_fifo_v1_set_output fifo output
  | Action.output_destroy =>
    if fifo.output_destroy_linked then fifo_handle_output_destroy fifo else some (fifo, [])
  | Action.cache_pending => some (surface_cache_pending fifo, [])
  | Action.commit_cached cached => some (surface_commit_cached fifo cached, [])

/-- A sequence of dispatches, with the concatenated trace; `none` when one of
them is undefined. -/
def run (fifo : wlr_fifo_v1) : List Action → Option (wlr_fifo_v1 × List Event)
  | [] => some (fifo, [])
  | a :: as =>
    match step fifo a with
    | none => none
    | some (fifo1, evs1) =>
      match run fifo1 as with
      | none => none
      | some (fifo2, evs2) => some (fifo2, evs1 ++ evs2)

/-- The entries that a Release round unlocks, in the words of the
specification: the entries up to and including the first one whose
`barrier_pending` is set, all of them when there is none. -/
def released_entries (q : List fifo_commit) : List fifo_commit :=
  q.takeWhile (fun c => !c.barrier_pending) ++
    ((q.dropWhile (fun c => !c.barrier_pending)).head?).toList

/-- The entries that stay queued after a Release round, in the words of the
specification: those after the first entry whose `barrier_pending` is set. -/
def remaining_entries (q : List fifo_commit) : List fifo_commit :=
  (q.dropWhile (fun c => !c.barrier_pending)).drop 1

/-- A client commit as the engine meets it: the surface fields and the pending
request flags at the time of the commit, and the token that locking the
surface's pending state returns. -/
structure client_commit where
  surface : wlr_surface
  pending : wlr_fifo_v1_fifo_state
  seq : Nat
deriving DecidableEq, Repr

/-- A run of client commits, none of which fails to allocate: each one is
handled by `fifo_handle_client_commit` on the surface fields and pending flags
it arrives with. -/
def client_commits (fifo : wlr_fifo_v1) : List client_commit → wlr_fifo_v1 × List Event
  | [] => (fifo, [])
  | c :: cs =>
    let r := fifo_handle_client_commit
      { fifo with surface := c.surface, pending := c.pending } true c.seq
    let r2 := client_commits r.1 cs
    (r2.1, r.2 ++ r2.2)

/-- At most `n` successive Release rounds, stopping as soon as the queue is
empty, with the concatenated trace. -/
def release_rounds : Nat → wlr_fifo_v1 → wlr_fifo_v1 × List Event
  | 0, fifo => (fifo, [])
  | n + 1, fifo =>
    if fifo.commits.isEmpty then
      (fifo, [])
    else
      let r := fifo_signal_barrier fifo
      let r2 := release_rounds n r.1
      (r2.1, r.2 ++ r2.2)

/-- The triggers that come from the client's commits: requests, the surface
fields changing, the client-commit handler and the finalize steps. -/
def client_action : Action → Bool
  | Action.surface_changed _ => true
  | Action.set_barrier => true
  | Action.wait_barrier => true
  | Action.client_commit _ _ => true
  | Action.commit => true
  | Action.cache_pending => true
  | Action.commit_cached _ => true
  | _ => false

/-- Exactly `n` consecutive Release rounds, with the concatenated trace. -/
def signal_rounds : Nat → wlr_fifo_v1 → wlr_fifo_v1 × List Event
  | 0, fifo => (fifo, [])
  | n + 1, fifo =>
    let r := fifo_signal_barrier fifo
    let r2 := signal_rounds n r.1
    (r2.1, r.2 ++ r2.2)

/-- Modelled from the spec: what the addon set of a surface holds under the
fifo addon key (`wlr_addon_find`, `wlr_addon_init` and `wlr_addon_finish` are
not part of the sources): the engines whose addon is attached. `dangling` says
that an engine was freed while its addon was still attached, after which
looking the addon up reads freed memory. -/
structure surface_addons where
  engines : List wlr_fifo_v1
  dangling : Bool
deriving DecidableEq, Repr

/-- The requests that reach the manager and its engines: `get_fifo` on the
surface `sid`, the destruction of the resource of the `k`-th engine attached to
a surface, and a dispatch to such an engine. -/
inductive manager_action where
  | get_fifo (sid : Nat) (surface : wlr_surface) (surface_output : Option wlr_output)
      (create_ok synced_ok timer_ok : Bool)
  | destroy (sid : Nat) (k : Nat)
  | dispatch (sid : Nat) (k : Nat) (a : Action)
deriving DecidableEq, Repr

/-- No surface carries an engine. -/
def manager_empty : Nat → surface_addons :=
  fun _ => { engines := [], dangling := false }

/-- One request to the manager. `fifo_manager_handle_get_fifo` is told whether
`wlr_addon_find` finds an engine on the surface; the engine it makes is
attached by `wlr_addon_init`; when `wlr_surface_synced_init` fails the engine
is freed with its addon still attached. `fifo_handle_resource_destroy` detaches
the engine (`wlr_addon_finish`). Anything on a surface with a dangling addon is
undefined. -/
def manager_step (w : Nat → surface_addons) :
    manager_action → Option ((Nat → surface_addons) × List Event)
  | manager_action.get_fifo sid surface surface_output create_ok synced_ok timer_ok =>
    if (w sid).dangling then
      none
    else
      match fifo_manager_handle_get_fifo (!(w sid).engines.isEmpty) surface surface_output
          create_ok synced_ok timer_ok with
      | none => none
      | some (some fifo, evs) =>
        some (Function.update w sid { (w sid) with engines := (w sid).engines ++ [fifo] }, evs)
      | some (none, evs) =>
        if (w sid).engines.isEmpty && create_ok && !synced_ok then
          some (Function.update w sid { (w sid) with dangling := true }, evs)
        else
          some (w, evs)
  | manager_action.destroy sid k =>
    if (w sid).dangling then
      none
    else
      match (w sid).engines.get? k with
      | none => some (w, [])
      | some fifo =>
        match fifo_handle_resource_destroy fifo with
        | none => none
        | some evs =>
          some (Function.update w sid { (w sid) with engines := (w sid).engines.eraseIdx k }, evs)
  | manager_action.dispatch sid k a =>
    if (w sid).dangling then
      none
    else
      match (w sid).engines.get? k with
      | none => some (w, [])
      | some fifo =>
        match step fifo a with
        | none => none
        | some (fifo1, evs) =>
          some (Function.update w sid { (w sid) with engines := (w sid).engines.set k fifo1 }, evs)

/-- A sequence of requests to the manager, with the concatenated trace. -/
def manager_run (w : Nat → surface_addons) :
    List manager_action → Option ((Nat → surface_addons) × List Event)
  | [] => some (w, [])
  | a :: as =>
    match manager_step w a with
    | none => none
    | some (w1, evs1) =>
      match manager_run w1 as with
      | none => none
      | some (w2, evs2) => some (w2, evs1 ++ evs2)

/-- A surface with a buffer whose pending commit leaves the buffer alone. -/
def sample_surface : wlr_surface :=
  { buffer := true, pending_committed_buffer := false, pending_buffer := false }

/-- A surface without a buffer. -/
def sample_surface_unmapped : wlr_surface :=
  { buffer := false, pending_committed_buffer := false, pending_buffer := false }

/-- An Armed engine with an empty queue and no output. -/
def sample_armed : wlr_fifo_v1 :=
  { fifo_create sample_surface with barrier_set := true, surface_occluded_timer := true }

/-- Three commits that ask to wait; the second also asks to set the barrier. -/
def sample_commits : List client_commit :=
  [ { surface := sample_surface, pending := { set_barrier := false, wait_barrier := true }, seq := 7 },
    { surface := sample_surface, pending := { set_barrier := true, wait_barrier := true }, seq := 8 },
    { surface := sample_surface, pending := { set_barrier := false, wait_barrier := true }, seq := 9 } ]

/-- A 60 Hz output. -/
def sample_output : wlr_output := { refresh := 60000 }

/-- An Armed engine whose current flags ask to wait while the pending flags of
the commit being made do not. -/
def sample_waiting_current : wlr_fifo_v1 :=
  { sample_armed with current := { set_barrier := false, wait_barrier := true } }

/-- An Armed engine whose pending flags ask to wait while its current flags do
not. -/
def sample_waiting_pending : wlr_fifo_v1 :=
  { sample_armed with pending := { set_barrier := false, wait_barrier := true } }

/-- An engine bound to the 60 Hz output, both listeners linked, Armed, with
three queued entries, the second re-arming. -/
def sample_bound : wlr_fifo_v1 :=
  { sample_armed with
      output := some sample_output,
      output_commit_linked := true,
      output_destroy_linked := true,
      last_output_commit_msec := 40,
      commits := [{ barrier_pending := false, seq := 7 }, { barrier_pending := true, seq := 8 },
                  { barrier_pending := false, seq := 9 }] }

/-- The bound engine of `sample_bound` on a surface without a buffer. -/
def sample_bound_unmapped : wlr_fifo_v1 :=
  { sample_bound with surface := sample_surface_unmapped }

/-- A 2000 Hz output: `refresh` is 2000000 mHz. -/
def sample_fast_output : wlr_output := { refresh := 2000000 }

/-- An engine made by `get_fifo` on a surface shown on the 2000 Hz output. -/
def sample_fast_engine : wlr_fifo_v1 :=
  { fifo_create sample_surface with
      output := some sample_fast_output,
      output_commit_linked := true,
      output_destroy_linked := true,
      surface_occluded_timer := true }

/-- An unbound engine with an empty queue that is Armed, has a pending wait
request and has seen a refresh-complete signal at time 40. -/
def sample_armed_idle : wlr_fifo_v1 :=
  { sample_armed with
      pending := { set_barrier := false, wait_barrier := true },
      current := { set_barrier := true, wait_barrier := false },
      last_output_commit_msec := 40 }

/-- A Disarmed engine on a surface without a buffer whose pending flags ask to
set the barrier. -/
def sample_unmapped_set_barrier : wlr_fifo_v1 :=
  { fifo_create sample_surface_unmapped with
      pending := { set_barrier := true, wait_barrier := false },
      surface_occluded_timer := true }

/-- An Armed engine with one queued entry whose pending flags ask both to wait
and to set the barrier. -/
def sample_armed_queued : wlr_fifo_v1 :=
  { sample_armed with
      pending := { set_barrier := true, wait_barrier := true },
      commits := [{ barrier_pending := false, seq := 7 }] }

/-- Two `get_fifo` requests on surface 0, one on surface 1, the destruction of
the engine of surface 0 and a further `get_fifo` on surface 0. -/
def sample_requests : List manager_action :=
  [ manager_action.get_fifo 0 sample_surface none true true true,
    manager_action.get_fifo 0 sample_surface (some sample_output) true true true,
    manager_action.get_fifo 1 sample_surface none true true true,
    manager_action.destroy 0 0,
    manager_action.get_fifo 0 sample_surface (some sample_output) true true true ]

/-- The engine that `get_fifo` makes on a surface with valid content that is on
no output. -/
def sample_fresh : wlr_fifo_v1 :=
  { fifo_create sample_surface with surface_occluded_timer := true }

/-- A Disarmed engine with an empty queue whose pending flags ask to wait. -/
def sample_disarmed_waiting : wlr_fifo_v1 :=
  { sample_fresh with pending := { set_barrier := false, wait_barrier := true } }

/-- Two commits that ask to wait, made while nothing asks to set the barrier:
requests, client-commit handler and finalize, twice. -/
def sample_wait_commits : List Action :=
  [ Action.wait_barrier, Action.client_commit true 1, Action.commit,
    Action.wait_barrier, Action.client_commit true 2, Action.commit ]

/-- Scenario A followed by a refresh-complete signal that cannot release (no
output is bound), a second queued commit and a timer expiry at time 100. -/
def sample_trace : List Action :=
  [ Action.wait_barrier, Action.client_commit true 1, Action.commit,
    Action.set_barrier, Action.client_commit true 2, Action.commit,
    Action.wait_barrier, Action.client_commit true 3, Action.cache_pending,
    Action.output_commit 50,
    Action.wait_barrier, Action.set_barrier, Action.client_commit true 4, Action.cache_pending,
    Action.wait_barrier, Action.client_commit true 5, Action.cache_pending,
    Action.timer 100 ]

/-- An Armed engine whose queue holds five entries, the second and the fifth
re-arming. -/
def sample_two_barriers : wlr_fifo_v1 :=
  { sample_armed with
      commits := [{ barrier_pending := false, seq := 1 }, { barrier_pending := true, seq := 2 },
                  { barrier_pending := false, seq := 3 }, { barrier_pending := false, seq := 4 },
                  { barrier_pending := true, seq := 5 }] }

/-- The state that `sample_trace` leads to from `sample_fresh`: Armed, token 5
still queued. -/
def sample_trace_end : wlr_fifo_v1 :=
  { sample_fresh with
      current := { set_barrier := true, wait_barrier := false },
      barrier_set := true,
      commits := [{ barrier_pending := false, seq := 5 }] }

theorem fifo_signal_barrier_loop_spec (q : List fifo_commit) :
    fifo_signal_barrier_loop q =
      (remaining_entries q,
       (released_entries q).map (fun c => Event.unlock_cached c.seq),
       q.any (fun c => c.barrier_pending)) := by
  induction q with
  | nil => rfl
  | cons c rest ih =>
    cases hb : c.barrier_pending
    · simp [fifo_signal_barrier_loop, hb, ih, released_entries, remaining_entries,
        List.takeWhile_cons, List.dropWhile_cons]
    · simp [fifo_signal_barrier_loop, hb, released_entries, remaining_entries,
        List.takeWhile_cons, List.dropWhile_cons]

theorem unlocked_map_unlock (q : List fifo_commit) :
    unlocked (q.map (fun c => Event.unlock_cached c.seq)) = q.map (fun c => c.seq) := by
  induction q with
  | nil => rfl
  | cons c rest ih => simp [unlocked, ih]

theorem released_append_remaining (q : List fifo_commit) :
    released_entries q ++ remaining_entries q = q := by
  induction q with
  | nil => rfl
  | cons c rest ih =>
    cases hb : c.barrier_pending
    · simpa [released_entries, remaining_entries, List.takeWhile_cons, List.dropWhile_cons, hb]
        using ih
    · simp [released_entries, remaining_entries, List.takeWhile_cons, List.dropWhile_cons, hb]

theorem remaining_entries_of_no_barrier (q : List fifo_commit)
    (hany : q.any (fun c => c.barrier_pending) = false) : remaining_entries q = [] := by
  induction q with
  | nil => rfl
  | cons c rest ih =>
    simp only [List.any_cons, Bool.or_eq_false_iff] at hany
    obtain ⟨hc, hrest⟩ := hany
    simpa [remaining_entries, List.dropWhile_cons, hc] using ih hrest

theorem fifo_signal_barrier_eq (fifo : wlr_fifo_v1) :
    fifo_signal_barrier fifo =
      ({ fifo with
          commits := remaining_entries fifo.commits,
          barrier_set := fifo.commits.any (fun c => c.barrier_pending) && fifo.barrier_set },
       (released_entries fifo.commits).map (fun c => Event.unlock_cached c.seq)) := by
  unfold fifo_signal_barrier
  rw [fifo_signal_barrier_loop_spec]
  cases hany : fifo.commits.any (fun c => c.barrier_pending) <;> simp

/-- C1: Release (`fifo_signal_barrier`), for every engine state with queue `q`,
unlocks, each once and in queue order, exactly the entries of `q` up to and
including the first one whose `barrier_pending` is set (all of `q` when there is
none); the entries after it stay queued in their order; when such an entry was
met the armed flag is left as it was (an Armed engine stays Armed), and when
there is none the queue is emptied and the engine is Disarmed. The function
writes no other field. -/
theorem fifo_signal_barrier_release (fifo : wlr_fifo_v1) :
    fifo_signal_barrier fifo =
      ({ fifo with
          commits := remaining_entries fifo.commits,
          barrier_set := fifo.commits.any (fun c => c.barrier_pending) && fifo.barrier_set },
       (released_entries fifo.commits).map (fun c => Event.unlock_cached c.seq))
    ∧ unlocked (fifo_signal_barrier fifo).2 = (released_entries fifo.commits).map (fun c => c.seq)
    ∧ released_entries fifo.commits ++ (fifo_signal_barrier fifo).1.commits = fifo.commits
    ∧ (fifo.commits.any (fun c => c.barrier_pending) = true →
        (fifo_signal_barrier fifo).1.barrier_set = fifo.barrier_set)
    ∧ (fifo.commits.any (fun c => c.barrier_pending) = false →
        (fifo_signal_barrier fifo).1.barrier_set = false ∧
        (fifo_signal_barrier fifo).1.commits = [] ∧
        unlocked (fifo_signal_barrier fifo).2 = fifo.commits.map (fun c => c.seq)) := by
  have h := fifo_signal_barrier_eq fifo
  have hsplit := released_append_remaining fifo.commits
  refine ⟨h, ?_, ?_, ?_, ?_⟩
  · rw [h]; exact unlocked_map_unlock _
  · rw [h]; exact hsplit
  · intro hany
    rw [h]; simp [hany]
  · intro hany
    have hrem : remaining_entries fifo.commits = [] := remaining_entries_of_no_barrier _ hany
    rw [hrem, List.append_nil] at hsplit
    rw [h]
    refine ⟨by simp [hany], hrem, ?_⟩
    simp only []
    rw [unlocked_map_unlock, hsplit]

/-! ## Release order, end to end -/

theorem unlocked_append (xs ys : List Event) :
    unlocked (xs ++ ys) = unlocked xs ++ unlocked ys := by
  induction xs with
  | nil => rfl
  | cons e es ih => cases e <;> simp [unlocked, ih]

theorem locked_append (xs ys : List Event) :
    locked (xs ++ ys) = locked xs ++ locked ys := by
  induction xs with
  | nil => rfl
  | cons e es ih => cases e <;> simp [locked, ih]

theorem locked_map_lock (cs : List client_commit) :
    locked (cs.map (fun c => Event.lock_pending c.seq)) = cs.map (fun c => c.seq) := by
  induction cs with
  | nil => rfl
  | cons c cs ih => simp [locked, ih]

theorem released_entries_length_pos (c : fifo_commit) (rest : List fifo_commit) :
    0 < (released_entries (c :: rest)).length := by
  cases hb : c.barrier_pending <;>
    simp [released_entries, List.takeWhile_cons, List.dropWhile_cons, hb]

theorem fifo_signal_barrier_commits (fifo : wlr_fifo_v1) :
    (fifo_signal_barrier fifo).1.commits = remaining_entries fifo.commits := by
  unfold fifo_signal_barrier
  rw [fifo_signal_barrier_loop_spec]
  cases fifo.commits.any (fun c => c.barrier_pending) <;> simp

theorem fifo_signal_barrier_events (fifo : wlr_fifo_v1) :
    (fifo_signal_barrier fifo).2 =
      (released_entries fifo.commits).map (fun c => Event.unlock_cached c.seq) := by
  unfold fifo_signal_barrier
  rw [fifo_signal_barrier_loop_spec]
  cases fifo.commits.any (fun c => c.barrier_pending) <;> simp

theorem release_rounds_drains (n : Nat) :
    ∀ fifo : wlr_fifo_v1, fifo.commits.length ≤ n →
      unlocked (release_rounds n fifo).2 = fifo.commits.map (fun c => c.seq) ∧
      (release_rounds n fifo).1.commits = [] := by
  induction n with
  | zero =>
    intro fifo h
    have h0 : fifo.commits = [] := List.length_eq_zero.mp (Nat.le_zero.mp h)
    simp [release_rounds, h0, unlocked]
  | succ n ih =>
    intro fifo h
    cases hq : fifo.commits with
    | nil => simp [release_rounds, hq, unlocked]
    | cons c rest =>
      have hsplit := released_append_remaining fifo.commits
      have hpos := released_entries_length_pos c rest
      have hlen : (fifo_signal_barrier fifo).1.commits.length ≤ n := by
        rw [fifo_signal_barrier_commits]
        have hl := congrArg List.length hsplit
        rw [List.length_append] at hl
        rw [hq] at hl h ⊢
        simp only [List.length_cons] at hl h
        omega
      obtain ⟨h1, h2⟩ := ih (fifo_signal_barrier fifo).1 hlen
      have hne : fifo.commits.isEmpty = false := by simp [hq]
      simp only [release_rounds, hne]
      refine ⟨?_, h2⟩
      simp only [Bool.false_eq_true, if_false]
      rw [unlocked_append, h1, fifo_signal_barrier_events, unlocked_map_unlock,
        fifo_signal_barrier_commits, ← List.map_append, hsplit, hq]

theorem client_commits_queued (cs : List client_commit) :
    ∀ fifo : wlr_fifo_v1, fifo.barrier_set = true →
      (∀ c ∈ cs, commit_on_valid_buffer c.surface = true ∧ c.pending.wait_barrier = true) →
      (client_commits fifo cs).1.commits =
        fifo.commits ++ cs.map (fun c => { barrier_pending := c.pending.set_barrier, seq := c.seq }) ∧
      (client_commits fifo cs).2 = cs.map (fun c => Event.lock_pending c.seq) ∧
      (client_commits fifo cs).1.barrier_set = true := by
  induction cs with
  | nil => intro fifo hb _; simp [client_commits, hb]
  | cons c cs ih =>
    intro fifo hb hall
    obtain ⟨hv, hw⟩ := hall c (List.mem_cons_self c cs)
    have hstep : fifo_handle_client_commit
        { fifo with surface := c.surface, pending := c.pending } true c.seq =
        ({ fifo with surface := c.surface, pending := c.pending,
                     commits := fifo.commits ++
                       [{ barrier_pending := c.pending.set_barrier, seq := c.seq }] },
         [Event.lock_pending c.seq]) := by
      simp [fifo_handle_client_commit, fifo_do_queue_commit, hv, hw, hb]
    obtain ⟨h1, h2, h3⟩ := ih
      { fifo with surface := c.surface, pending := c.pending,
                  commits := fifo.commits ++
                    [{ barrier_pending := c.pending.set_barrier, seq := c.seq }] }
      hb (fun d hd => hall d (List.mem_cons_of_mem c hd))
    simp only [client_commits, hstep]
    refine ⟨?_, ?_, h3⟩
    · rw [h1]; simp
    · rw [h2]; simp

/-- C2: FIFO release order end to end. For every Armed engine with an empty
queue and every run of k client commits with valid content and wait-if-armed
requested, every commit is queued, the tokens t1..tk being obtained in that
order, and the tokens unlocked by successive Release rounds until the queue is
empty are exactly t1..tk in the same order; k rounds suffice to empty it. -/
theorem fifo_release_order (fifo : wlr_fifo_v1) (cs : List client_commit)
    (harmed : fifo.barrier_set = true) (hempty : fifo.commits = [])
    (hqueued : ∀ c ∈ cs,
      commit_on_valid_buffer c.surface = true ∧ c.pending.wait_barrier = true) :
    locked (client_commits fifo cs).2 = cs.map (fun c => c.seq) ∧
    (client_commits fifo cs).1.commits.map (fun c => c.seq) = cs.map (fun c => c.seq) ∧
    unlocked (release_rounds cs.length (client_commits fifo cs).1).2 = cs.map (fun c => c.seq) ∧
    (release_rounds cs.length (client_commits fifo cs).1).1.commits = [] := by
  obtain ⟨h1, h2, _⟩ := client_commits_queued cs fifo harmed hqueued
  have hlen : (client_commits fifo cs).1.commits.length ≤ cs.length := by
    rw [h1, hempty]; simp
  obtain ⟨h3, h4⟩ := release_rounds_drains cs.length (client_commits fifo cs).1 hlen
  have hmap : (client_commits fifo cs).1.commits.map (fun c => c.seq) = cs.map (fun c => c.seq) := by
    rw [h1, hempty]; simp [Function.comp_def]
  refine ⟨?_, hmap, ?_, h4⟩
  · rw [h2]; exact locked_map_lock cs
  · rw [h3, hmap]

/-- Witness of C2: three commits with tokens 7, 8, 9, the second re-arming. -/
theorem fifo_release_order_witness :
    (sample_armed.barrier_set = true ∧ sample_armed.commits = [] ∧
      ∀ c ∈ sample_commits,
        commit_on_valid_buffer c.surface = true ∧ c.pending.wait_barrier = true) ∧
    (locked (client_commits sample_armed sample_commits).2 = sample_commits.map (fun c => c.seq) ∧
     (client_commits sample_armed sample_commits).1.commits.map (fun c => c.seq) =
        sample_commits.map (fun c => c.seq) ∧
     unlocked (release_rounds sample_commits.length
        (client_commits sample_armed sample_commits).1).2 = sample_commits.map (fun c => c.seq) ∧
     (release_rounds sample_commits.length
        (client_commits sample_armed sample_commits).1).1.commits = []) :=
  ⟨⟨rfl, rfl, by decide⟩,
   fifo_release_order sample_armed sample_commits rfl rfl (by decide)⟩

/-! ## The queueing decision -/

/-- C3, as stated, fails: with valid content, `current.wait_barrier` set and the
engine Armed, a commit whose own (pending) flags do not ask to wait is not
queued; and with `current.wait_barrier` clear, a commit whose pending flags ask
to wait is queued. -/
theorem client_commit_reads_pending_not_current :
    (commit_on_valid_buffer sample_waiting_current.surface = true ∧
     sample_waiting_current.current.wait_barrier = true ∧
     sample_waiting_current.barrier_set = true ∧
     fifo_handle_client_commit sample_waiting_current true 5 = (sample_waiting_current, [])) ∧
    (commit_on_valid_buffer sample_waiting_pending.surface = true ∧
     sample_waiting_pending.current.wait_barrier = false ∧
     (fifo_handle_client_commit sample_waiting_pending true 5).1.commits =
        [{ barrier_pending := false, seq := 5 }] ∧
     (fifo_handle_client_commit sample_waiting_pending true 5).2 = [Event.lock_pending 5]) := by
  decide

/-- C3, amended: for every engine state whose surface has valid content, a
client commit creates a Queue Entry if and only if `pending.wait_barrier` is set,
the engine is Armed and the allocation of the entry succeeds; the entry is then
appended and the pending state locked once; otherwise the engine state is
unchanged and no cached state is locked. -/
theorem client_commit_queueing_decision (fifo : wlr_fifo_v1) (calloc_ok : Bool) (seq : Nat)
    (hvalid : commit_on_valid_buffer fifo.surface = true) :
    ((fifo_handle_client_commit fifo calloc_ok seq).1.commits.length = fifo.commits.length + 1 ↔
      (fifo.pending.wait_barrier = true ∧ fifo.barrier_set = true ∧ calloc_ok = true)) ∧
    ((fifo.pending.wait_barrier = true ∧ fifo.barrier_set = true ∧ calloc_ok = true) →
      fifo_handle_client_commit fifo calloc_ok seq =
        ({ fifo with commits := fifo.commits ++
              [{ barrier_pending := fifo.pending.set_barrier, seq := seq }] },
         [Event.lock_pending seq])) ∧
    (¬ (fifo.pending.wait_barrier = true ∧ fifo.barrier_set = true ∧ calloc_ok = true) →
      (fifo_handle_client_commit fifo calloc_ok seq).1 = fifo ∧
      locked (fifo_handle_client_commit fifo calloc_ok seq).2 = []) := by
  cases hw : fifo.pending.wait_barrier <;> cases hb : fifo.barrier_set <;> cases calloc_ok <;>
    simp [fifo_handle_client_commit, fifo_do_queue_commit, hvalid, hw, hb, locked]

/-- Witness of C3 amended: an Armed engine, a commit asking to wait, token 5. -/
theorem client_commit_queueing_decision_witness :
    commit_on_valid_buffer sample_waiting_pending.surface = true ∧
    (fifo_handle_client_commit sample_waiting_pending true 5).1.commits.length =
      sample_waiting_pending.commits.length + 1 :=
  ⟨rfl, (client_commit_queueing_decision sample_waiting_pending true 5 rfl).1.mpr ⟨rfl, rfl, rfl⟩⟩

/-! ## Reset and the lock/unlock balance -/

theorem fifo_reset_loop_nonzero (q : List fifo_commit) (hnz : ∀ c ∈ q, c.seq ≠ 0) :
    unlocked (fifo_reset_loop q) = q.map (fun c => c.seq) := by
  induction q with
  | nil => rfl
  | cons c rest ih =>
    have hc : c.seq ≠ 0 := hnz c (List.mem_cons_self c rest)
    have hrest := ih (fun d hd => hnz d (List.mem_cons_of_mem c hd))
    simp [fifo_reset_loop, hc, unlocked, hrest]

/-- C5: the code breaks the binding invariant. An engine made by `get_fifo` on
a surface shown on an output, then rebound to no output, still has `output`
set while neither listener is linked; the next Reset (here through a further
`set_output`) removes listeners that are in no list, which is undefined
(`none`). -/
theorem set_output_none_keeps_output :
    fifo_manager_handle_get_fifo false sample_surface (some sample_output) true true true =
      some (some { fifo_create sample_surface with
                     output := some sample_output,
                     output_commit_linked := true,
                     output_destroy_linked := true,
                     surface_occluded_timer := true },
            [Event.timer_update 16, Event.emit_new_fifo]) ∧
    run { fifo_create sample_surface with
            output := some sample_output,
            output_commit_linked := true,
            output_destroy_linked := true,
            surface_occluded_timer := true }
        [Action.set_output none] =
      some ({ fifo_create sample_surface with
                output := some sample_output,
                output_commit_linked := false,
                output_destroy_linked := false,
                surface_occluded_timer := true }, []) ∧
    run { fifo_create sample_surface with
            output := some sample_output,
            output_commit_linked := true,
            output_destroy_linked := true,
            surface_occluded_timer := true }
        [Action.set_output none, Action.set_output none] = none := by
  decide

/-- C6: the code does not treat output-destroyed as rebinding to none. On the
bound engine both make the same unlock calls and agree on every other field,
but the destroy handler clears `output` while `set_output(NULL)` leaves it
set. -/
theorem output_destroy_clears_output_set_output_none_does_not :
    (fifo_handle_output_destroy sample_bound).map (fun r => r.1.output) = some none ∧
    (wlr_fifo_v1_set_output sample_bound none).map (fun r => r.1.output) =
      some (some sample_output) ∧
    (fifo_handle_output_destroy sample_bound).map (fun r => r.2) =
      (wlr_fifo_v1_set_output sample_bound none).map (fun r => r.2) ∧
    (fifo_handle_output_destroy sample_bound) =
      (wlr_fifo_v1_set_output sample_bound none).map
        (fun r => ({ r.1 with output := none }, r.2)) := by
  decide

/-! ## Refresh-complete -/

/-- C7, as stated, fails: on a bound, Armed engine whose surface has no buffer,
the refresh-complete handler at time 100 neither records the time (the
timestamp stays 40) nor runs Release. -/
theorem fifo_handle_output_commit_unmapped_ignored :
    sample_bound_unmapped.output = some sample_output ∧
    sample_bound_unmapped.barrier_set = true ∧
    sample_bound_unmapped.last_output_commit_msec = 40 ∧
    fifo_handle_output_commit sample_bound_unmapped 100 = (sample_bound_unmapped, []) := by
  decide

/-- C7, amended: for every engine state whose surface has a buffer, handling a
refresh-complete signal at time `now` sets the timestamp to `now` and runs
Release if and only if the engine is Armed (when Disarmed the queue and the
armed flag are unchanged and nothing is unlocked); when the surface has no
buffer the handler changes nothing. -/
theorem fifo_handle_output_commit_transition (fifo : wlr_fifo_v1) (now : Int) :
    (fifo.surface.buffer = true →
      (fifo_handle_output_commit fifo now).1.last_output_commit_msec = now ∧
      (fifo.barrier_set = true →
        fifo_handle_output_commit fifo now =
          ({ (fifo_signal_barrier fifo).1 with last_output_commit_msec := now },
           (fifo_signal_barrier fifo).2)) ∧
      (fifo.barrier_set = false →
        fifo_handle_output_commit fifo now =
          ({ fifo with last_output_commit_msec := now }, []))) ∧
    (fifo.surface.buffer = false → fifo_handle_output_commit fifo now = (fifo, [])) := by
  cases hbuf : fifo.surface.buffer <;> cases hb : fifo.barrier_set <;>
    simp [fifo_handle_output_commit, hbuf, hb]

/-- Witness of C7 amended: the bound engine with queued tokens 7, 8, 9 at time
100: tokens 7 and 8 are unlocked, 9 stays queued, the timestamp is 100. -/
theorem fifo_handle_output_commit_transition_witness :
    sample_bound.surface.buffer = true ∧ sample_bound.barrier_set = true ∧
    fifo_handle_output_commit sample_bound 100 =
      ({ sample_bound with
           commits := [{ barrier_pending := false, seq := 9 }],
           last_output_commit_msec := 100 },
       [Event.unlock_cached 7, Event.unlock_cached 8]) :=
  ⟨rfl, rfl,
   ((fifo_handle_output_commit_transition sample_bound 100).1 rfl).2.1 rfl⟩

/-! ## The timer -/

theorem handle_timer_eq (fifo : wlr_fifo_v1) (now : Int) :
    handle_timer fifo now =
      if fifo.barrier_set = true ∧ now - fifo.last_output_commit_msec > refresh_msec fifo then
        ((fifo_signal_barrier fifo).1,
         (fifo_signal_barrier fifo).2 ++ [Event.timer_update (refresh_msec fifo)])
      else
        (fifo, [Event.timer_update (refresh_msec fifo)]) := by
  unfold handle_timer
  by_cases h : fifo.barrier_set = true ∧ now - fifo.last_output_commit_msec > refresh_msec fifo
  · obtain ⟨h1, h2⟩ := h
    simp [h1, h2]
  · rw [if_neg h]
    have h2 : (fifo.barrier_set &&
        decide (now - fifo.last_output_commit_msec > refresh_msec fifo)) = false := by
      cases hb : fifo.barrier_set
      · rfl
      · simp only [Bool.true_and, decide_eq_false_iff_not]
        intro hgt
        exact h ⟨hb, hgt⟩
    simp [h2]

/-- C8: for every engine state and time `now`, with cadence `c = refresh_msec`
(25 ms when no output is bound), the timer handler runs Release if and only if
the engine is Armed and `now - last_output_commit_msec > c`: in that case the
state and the unlocks are those of Release, otherwise the whole engine state is
unchanged and nothing is unlocked. In particular an Armed, unbound engine whose
last refresh-complete signal is 30 ms or more in the past gets a Release. -/
theorem handle_timer_transition (fifo : wlr_fifo_v1) (now : Int) :
    (fifo.output = none → refresh_msec fifo = 25) ∧
    ((fifo.barrier_set = true ∧ now - fifo.last_output_commit_msec > refresh_msec fifo) →
      (handle_timer fifo now).1 = (fifo_signal_barrier fifo).1 ∧
      unlocked (handle_timer fifo now).2 = unlocked (fifo_signal_barrier fifo).2) ∧
    (¬ (fifo.barrier_set = true ∧ now - fifo.last_output_commit_msec > refresh_msec fifo) →
      (handle_timer fifo now).1 = fifo ∧ unlocked (handle_timer fifo now).2 = []) ∧
    ((fifo.barrier_set = true ∧ fifo.output = none ∧
        now - fifo.last_output_commit_msec ≥ 30) →
      (handle_timer fifo now).1 = (fifo_signal_barrier fifo).1 ∧
      unlocked (handle_timer fifo now).2 = unlocked (fifo_signal_barrier fifo).2) := by
  have h25 : fifo.output = none → refresh_msec fifo = 25 := by
    intro ho
    simp [refresh_msec, ho]
  have hrel : (fifo.barrier_set = true ∧
      now - fifo.last_output_commit_msec > refresh_msec fifo) →
      (handle_timer fifo now).1 = (fifo_signal_barrier fifo).1 ∧
      unlocked (handle_timer fifo now).2 = unlocked (fifo_signal_barrier fifo).2 := by
    intro h
    rw [handle_timer_eq, if_pos h]
    simp [unlocked_append, unlocked]
  refine ⟨h25, hrel, ?_, ?_⟩
  · intro h
    rw [handle_timer_eq, if_neg h]
    simp [unlocked]
  · rintro ⟨hb, ho, hge⟩
    apply hrel
    refine ⟨hb, ?_⟩
    rw [h25 ho]
    omega

/-- Witness of C8: the Armed, unbound engine holding the three sample commits,
30 ms after its last refresh-complete signal: the timer releases tokens 7 and
8. -/
theorem handle_timer_transition_witness :
    ((client_commits sample_armed sample_commits).1.barrier_set = true ∧
      (client_commits sample_armed sample_commits).1.output = none ∧
      (30 : Int) - (client_commits sample_armed sample_commits).1.last_output_commit_msec ≥ 30) ∧
    unlocked (handle_timer (client_commits sample_armed sample_commits).1 30).2 = [7, 8] :=
  ⟨by decide,
   ((handle_timer_transition (client_commits sample_armed sample_commits).1 30).2.2.2
      (by decide)).2⟩

theorem refresh_msec_pos_of_le (fifo : wlr_fifo_v1) (output : wlr_output)
    (ho : fifo.output = some output) (h0 : 0 ≤ output.refresh)
    (h1 : output.refresh ≤ 1000000) : 0 < refresh_msec fifo := by
  unfold refresh_msec
  rw [ho]
  by_cases hz : output.refresh = 0
  · simp [hz]
  · simp only [ne_eq, hz, not_false_eq_true, if_true]
    have hpos : 0 < output.refresh := lt_of_le_of_ne h0 (Ne.symm hz)
    rw [Int.tdiv_eq_ediv (by norm_num) (le_of_lt hpos)]
    have hle := Int.le_ediv_of_mul_le hpos (show 1 * output.refresh ≤ 1000000 by omega)
    omega

/-- C9: the code can leave the timer unscheduled. On an engine bound to a
2000 Hz output (`refresh` = 2000000 mHz) the cadence `1000000 / refresh` is 0,
and both `get_fifo` and the timer handler call
`wl_event_source_timer_update` with delay 0, whether or not Release ran. -/
theorem handle_timer_zero_delay :
    refresh_msec sample_fast_engine = 0 ∧
    fifo_manager_handle_get_fifo false sample_surface (some sample_fast_output) true true true =
      some (some sample_fast_engine, [Event.timer_update 0, Event.emit_new_fifo]) ∧
    handle_timer sample_fast_engine 100 = (sample_fast_engine, [Event.timer_update 0]) ∧
    (handle_timer { sample_fast_engine with barrier_set := true } 100).2 =
      [Event.timer_update 0] := by
  decide

/-! ## Redundant Reset -/

/-- C10, as stated, fails: Reset of an unbound engine with an empty queue that
is Armed, has request flags set and a timestamp of 40 makes no unlock call but
disarms the engine, clears the pending and current flags and zeroes the
timestamp. -/
theorem fifo_reset_idle_clears_state :
    sample_armed_idle.commits = [] ∧ sample_armed_idle.output = none ∧
    sample_armed_idle.barrier_set = true ∧
    (fifo_reset sample_armed_idle).map (fun r => r.2) = some [] ∧
    (fifo_reset sample_armed_idle).map
        (fun r => (r.1.barrier_set, r.1.pending, r.1.current, r.1.last_output_commit_msec)) =
      some (false, fifo_state_zero, fifo_state_zero, 0) ∧
    (fifo_reset sample_armed_idle).map (fun r => decide (r.1 = sample_armed_idle)) =
      some false := by
  decide

/-- C10, amended: for every engine state whose queue is empty and which has no
output bound, Reset makes no unlock call and leaves the queue, the binding, the
listeners and the surface as they were, while it disarms the engine, clears the
pending and current request flags and zeroes the timestamp; so it leaves the
whole engine state unchanged exactly when the engine was already Disarmed with
all request flags clear and a zero timestamp. -/
theorem fifo_reset_idle (fifo : wlr_fifo_v1)
    (hqueue : fifo.commits = []) (hout : fifo.output = none) :
    fifo_reset fifo =
      some ({ fifo with barrier_set := false,
                        current := fifo_state_zero,
                        pending := fifo_state_zero,
                        last_output_commit_msec := 0 }, []) ∧
    (fifo_reset fifo = some (fifo, []) ↔
      (fifo.barrier_set = false ∧ fifo.current = fifo_state_zero ∧
       fifo.pending = fifo_state_zero ∧ fifo.last_output_commit_msec = 0)) := by
  have h : fifo_reset fifo =
      some ({ fifo with barrier_set := false,
                        current := fifo_state_zero,
                        pending := fifo_state_zero,
                        last_output_commit_msec := 0 }, []) := by
    cases fifo with
    | mk surface output current pending ocl odl barrier_set last timer commits =>
      simp only at hqueue hout
      subst hqueue hout
      simp [fifo_reset, fifo_reset_loop]
  refine ⟨h, ?_⟩
  rw [h]
  cases fifo with
  | mk surface output current pending ocl odl barrier_set last timer commits =>
    simp only [Option.some.injEq, Prod.mk.injEq, wlr_fifo_v1.mk.injEq, and_true, true_and]
    constructor
    · rintro ⟨h1, h2, h3, h4⟩
      exact ⟨h3.symm, h1.symm, h2.symm, h4.symm⟩
    · rintro ⟨h1, h2, h3, h4⟩
      exact ⟨h2.symm, h3.symm, h1.symm, h4.symm⟩

/-- Witness of C10 amended: the freshly created engine, on which Reset changes
nothing. -/
theorem fifo_reset_idle_witness :
    (fifo_create sample_surface).commits = [] ∧ (fifo_create sample_surface).output = none ∧
    fifo_reset (fifo_create sample_surface) = some (fifo_create sample_surface, []) :=
  ⟨rfl, rfl,
   (fifo_reset_idle (fifo_create sample_surface) rfl rfl).2.mpr ⟨rfl, rfl, rfl, rfl⟩⟩

/-! ## Commits without valid content -/

/-- C11, as stated, fails: on a Disarmed engine whose surface has no buffer, a
commit that asks to set the barrier is not queued and locks nothing, but the
commit-finalize that follows the client-commit step arms the engine. -/
theorem invalid_commit_still_arms :
    commit_on_valid_buffer sample_unmapped_set_barrier.surface = false ∧
    sample_unmapped_set_barrier.barrier_set = false ∧
    fifo_handle_client_commit sample_unmapped_set_barrier true 5 =
      (sample_unmapped_set_barrier, []) ∧
    (surface_commit (fifo_handle_client_commit sample_unmapped_set_barrier true 5).1).barrier_set
      = true := by
  decide

/-- C11, amended: for every engine state whose surface carries no valid
content, whatever the request flags, the client-commit step creates no Queue
Entry, locks nothing and changes no field of the engine; the commit-finalize
that follows leaves the queue alone and arms the engine exactly when the
commit asks to set the barrier, leaving the armed flag as it was otherwise. -/
theorem invalid_commit_not_queued (fifo : wlr_fifo_v1) (calloc_ok : Bool) (seq : Nat)
    (hinvalid : commit_on_valid_buffer fifo.surface = false) :
    fifo_handle_client_commit fifo calloc_ok seq = (fifo, []) ∧
    (surface_commit (fifo_handle_client_commit fifo calloc_ok seq).1).commits = fifo.commits ∧
    (surface_commit (fifo_handle_client_commit fifo calloc_ok seq).1).barrier_set =
      (fifo.barrier_set || fifo.pending.set_barrier) := by
  have h : fifo_handle_client_commit fifo calloc_ok seq = (fifo, []) := by
    simp [fifo_handle_client_commit, hinvalid]
  rw [h]
  refine ⟨rfl, ?_, ?_⟩
  · cases hs : fifo.pending.set_barrier <;>
      simp [surface_commit, surface_synced_move_state, fifo_handle_commit, hs]
  · cases hs : fifo.pending.set_barrier <;>
      simp [surface_commit, surface_synced_move_state, fifo_handle_commit, hs]

/-- Witness of C11 amended: the Disarmed engine on a surface without a buffer. -/
theorem invalid_commit_not_queued_witness :
    commit_on_valid_buffer sample_unmapped_set_barrier.surface = false ∧
    fifo_handle_client_commit sample_unmapped_set_barrier true 5 =
      (sample_unmapped_set_barrier, []) :=
  ⟨rfl, (invalid_commit_not_queued sample_unmapped_set_barrier true 5 rfl).1⟩

/-! ## Allocation failure -/

/-- C12: when a client commit would be queued (valid content, the pending flags
ask to wait, the engine is Armed) and the allocation of the entry fails, the
handler reports no-memory to the client, makes no lock call and returns the
engine state unchanged in every field. -/
theorem client_commit_alloc_failure (fifo : wlr_fifo_v1) (seq : Nat)
    (hvalid : commit_on_valid_buffer fifo.surface = true)
    (hqueue : fifo_do_queue_commit fifo = true) :
    fifo_handle_client_commit fifo false seq = (fifo, [Event.post_no_memory]) ∧
    locked (fifo_handle_client_commit fifo false seq).2 = [] ∧
    (fifo_handle_client_commit fifo false seq).1.commits = fifo.commits ∧
    (fifo_handle_client_commit fifo false seq).1.barrier_set = fifo.barrier_set ∧
    (fifo_handle_client_commit fifo false seq).1.current = fifo.current ∧
    (fifo_handle_client_commit fifo false seq).1.last_output_commit_msec =
      fifo.last_output_commit_msec ∧
    (fifo_handle_client_commit fifo false seq).1.output = fifo.output := by
  have h : fifo_handle_client_commit fifo false seq = (fifo, [Event.post_no_memory]) := by
    simp [fifo_handle_client_commit, hvalid, hqueue]
  rw [h]
  exact ⟨rfl, rfl, rfl, rfl, rfl, rfl, rfl⟩

/-- Witness of C12: the Armed engine with one queued entry and a commit asking
to wait. -/
theorem client_commit_alloc_failure_witness :
    (commit_on_valid_buffer sample_armed_queued.surface = true ∧
      fifo_do_queue_commit sample_armed_queued = true) ∧
    fifo_handle_client_commit sample_armed_queued false 8 =
      (sample_armed_queued, [Event.post_no_memory]) :=
  ⟨⟨rfl, rfl⟩, (client_commit_alloc_failure sample_armed_queued 8 rfl rfl).1⟩

/-! ## One engine per surface -/

theorem get_fifo_addon_found (surface : wlr_surface) (surface_output : Option wlr_output)
    (create_ok synced_ok timer_ok : Bool) :
    fifo_manager_handle_get_fifo true surface surface_output create_ok synced_ok timer_ok =
      some (none, [Event.post_error_already_exists]) := by
  simp [fifo_manager_handle_get_fifo]

theorem manager_step_engines_le_one (w w1 : Nat → surface_addons) (a : manager_action)
    (evs : List Event) (hstep : manager_step w a = some (w1, evs))
    (hinv : ∀ sid, (w sid).engines.length ≤ 1) :
    ∀ sid, (w1 sid).engines.length ≤ 1 := by
  intro sid1
  cases a with
  | get_fifo sid surface surface_output create_ok synced_ok timer_ok =>
    simp only [manager_step] at hstep
    split at hstep
    · exact absurd hstep (by simp)
    · cases hq : (w sid).engines with
      | nil =>
        rw [hq] at hstep
        split at hstep
        · exact absurd hstep (by simp)
        · simp only [Option.some.injEq, Prod.mk.injEq] at hstep
          obtain ⟨hw, _⟩ := hstep
          rw [← hw, Function.update_apply]
          split
          · simp
          · exact hinv sid1
        · split at hstep
          · simp only [Option.some.injEq, Prod.mk.injEq] at hstep
            obtain ⟨hw, _⟩ := hstep
            rw [← hw, Function.update_apply]
            split
            · simp [hq]
            · exact hinv sid1
          · simp only [Option.some.injEq, Prod.mk.injEq] at hstep
            obtain ⟨hw, _⟩ := hstep
            rw [← hw]
            exact hinv sid1
      | cons e rest =>
        rw [hq] at hstep
        simp only [List.isEmpty_cons, Bool.not_false, get_fifo_addon_found, Bool.false_and,
          Bool.false_eq_true, if_false, Option.some.injEq, Prod.mk.injEq] at hstep
        obtain ⟨hw, _⟩ := hstep
        rw [← hw]
        exact hinv sid1
  | destroy sid k =>
    simp only [manager_step] at hstep
    split at hstep
    · exact absurd hstep (by simp)
    · split at hstep
      · simp only [Option.some.injEq, Prod.mk.injEq] at hstep
        obtain ⟨hw, _⟩ := hstep
        rw [← hw]
        exact hinv sid1
      · split at hstep
        · exact absurd hstep (by simp)
        · simp only [Option.some.injEq, Prod.mk.injEq] at hstep
          obtain ⟨hw, _⟩ := hstep
          rw [← hw, Function.update_apply]
          split
          · exact le_trans (List.length_eraseIdx_le _ _) (hinv sid)
          · exact hinv sid1
  | dispatch sid k act =>
    simp only [manager_step] at hstep
    split at hstep
    · exact absurd hstep (by simp)
    · split at hstep
      · simp only [Option.some.injEq, Prod.mk.injEq] at hstep
        obtain ⟨hw, _⟩ := hstep
        rw [← hw]
        exact hinv sid1
      · split at hstep
        · exact absurd hstep (by simp)
        · simp only [Option.some.injEq, Prod.mk.injEq] at hstep
          obtain ⟨hw, _⟩ := hstep
          rw [← hw, Function.update_apply]
          split
          · simpa using hinv sid
          · exact hinv sid1

theorem manager_run_engines_le_one (as : List manager_action) :
    ∀ (w w1 : Nat → surface_addons) (evs : List Event),
      manager_run w as = some (w1, evs) →
      (∀ sid, (w sid).engines.length ≤ 1) → ∀ sid, (w1 sid).engines.length ≤ 1 := by
  induction as with
  | nil =>
    intro w w1 evs hrun hinv
    simp only [manager_run, Option.some.injEq, Prod.mk.injEq] at hrun
    rw [← hrun.1]
    exact hinv
  | cons a as ih =>
    intro w w1 evs hrun hinv
    simp only [manager_run] at hrun
    cases hs : manager_step w a with
    | none => simp [hs] at hrun
    | some r =>
      obtain ⟨w2, evs2⟩ := r
      cases hr : manager_run w2 as with
      | none => simp [hs, hr] at hrun
      | some r3 =>
        obtain ⟨w3, evs3⟩ := r3
        simp only [hs, hr, Option.some.injEq, Prod.mk.injEq] at hrun
        rw [← hrun.1]
        exact ih w2 w3 evs3 hr (manager_step_engines_le_one w w2 a evs2 hs hinv)

/-- C13: `get_fifo` on a surface that already has an engine posts
`ALREADY_EXISTS`, makes no engine and leaves every attached engine as it was;
hence after any sequence of `get_fifo` requests, engine destructions and
dispatches to engines that starts with no engine, every surface has at most one
engine. -/
theorem one_engine_per_surface :
    (∀ surface surface_output create_ok synced_ok timer_ok,
      fifo_manager_handle_get_fifo true surface surface_output create_ok synced_ok timer_ok =
        some (none, [Event.post_error_already_exists])) ∧
    (∀ (w : Nat → surface_addons) sid surface surface_output create_ok synced_ok timer_ok,
      (w sid).engines ≠ [] → (w sid).dangling = false →
      manager_step w
          (manager_action.get_fifo sid surface surface_output create_ok synced_ok timer_ok) =
        some (w, [Event.post_error_already_exists])) ∧
    (∀ (as : List manager_action) (w : Nat → surface_addons) (evs : List Event),
      manager_run manager_empty as = some (w, evs) →
      ∀ sid, (w sid).engines.length ≤ 1) := by
  refine ⟨get_fifo_addon_found, ?_, ?_⟩
  · intro w sid surface surface_output create_ok synced_ok timer_ok hne hd
    cases hq : (w sid).engines with
    | nil => exact absurd hq hne
    | cons e rest =>
      simp [manager_step, hd, hq, get_fifo_addon_found]
  · intro as w evs hrun
    exact manager_run_engines_le_one as manager_empty w evs hrun (fun _ => by simp [manager_empty])

/-- Witness of C13: the sample requests. The second `get_fifo` on surface 0 is
refused, surface 1 gets its own engine, and after the engine of surface 0 is
destroyed a new one can be made; each surface ends with one engine. -/
theorem one_engine_per_surface_witness :
    (manager_run manager_empty sample_requests).map
        (fun r => ((r.1 0).engines.length, (r.1 1).engines.length, (r.1 2).engines.length, r.2)) =
      some (1, 1, 0,
        [Event.timer_update 25, Event.emit_new_fifo,
         Event.post_error_already_exists,
         Event.timer_update 25, Event.emit_new_fifo,
         Event.emit_destroy, Event.timer_remove,
         Event.timer_update 16, Event.emit_new_fifo]) ∧
    (∀ (w : Nat → surface_addons) (evs : List Event),
      manager_run manager_empty sample_requests = some (w, evs) →
      (w 0).engines.length ≤ 1) :=
  ⟨by decide, fun w evs h => one_engine_per_surface.2.2 sample_requests w evs h 0⟩

/-! ## Commits while Disarmed, and arm persistence -/

theorem fifo_handle_client_commit_disarmed (fifo : wlr_fifo_v1) (calloc_ok : Bool) (seq : Nat)
    (hdis : fifo.barrier_set = false) :
    fifo_handle_client_commit fifo calloc_ok seq = (fifo, []) := by
  cases hv : commit_on_valid_buffer fifo.surface <;>
    simp [fifo_handle_client_commit, fifo_do_queue_commit, hv, hdis]

theorem fifo_handle_client_commit_barrier_set (fifo : wlr_fifo_v1) (calloc_ok : Bool)
    (seq : Nat) :
    (fifo_handle_client_commit fifo calloc_ok seq).1.barrier_set = fifo.barrier_set ∧
    unlocked (fifo_handle_client_commit fifo calloc_ok seq).2 = [] := by
  cases hv : commit_on_valid_buffer fifo.surface <;> cases hw : fifo.pending.wait_barrier <;>
    cases hb : fifo.barrier_set <;> cases calloc_ok <;>
    simp [fifo_handle_client_commit, fifo_do_queue_commit, hv, hw, hb, unlocked]

theorem fifo_handle_commit_eq (fifo : wlr_fifo_v1) :
    fifo_handle_commit fifo =
      { fifo with barrier_set := fifo.barrier_set || fifo.current.set_barrier } := by
  cases hs : fifo.current.set_barrier <;> simp [fifo_handle_commit, hs]

theorem surface_commit_eq (fifo : wlr_fifo_v1) :
    surface_commit fifo =
      { fifo with current := fifo.pending,
                  pending := fifo_state_zero,
                  barrier_set := fifo.barrier_set || fifo.pending.set_barrier } := by
  simp [surface_commit, surface_synced_move_state, fifo_handle_commit_eq, fifo_state_zero]

theorem surface_commit_cached_eq (fifo : wlr_fifo_v1) (cached : wlr_fifo_v1_fifo_state) :
    surface_commit_cached fifo cached =
      { fifo with current := cached,
                  barrier_set := fifo.barrier_set || cached.set_barrier } := by
  simp [surface_commit_cached, surface_synced_move_state, fifo_handle_commit_eq]

theorem client_step (fifo : wlr_fifo_v1) (a : Action) (ha : client_action a = true) :
    ∃ f1 evs1, step fifo a = some (f1, evs1) ∧ unlocked evs1 = [] ∧
      (fifo.barrier_set = true → f1.barrier_set = true) ∧
      (fifo.barrier_set = false → f1.commits = fifo.commits ∧ locked evs1 = []) := by
  cases a with
  | surface_changed surface => exact ⟨_, _, rfl, rfl, fun h => h, fun _ => ⟨rfl, rfl⟩⟩
  | set_barrier => exact ⟨_, _, rfl, rfl, fun h => h, fun _ => ⟨rfl, rfl⟩⟩
  | wait_barrier => exact ⟨_, _, rfl, rfl, fun h => h, fun _ => ⟨rfl, rfl⟩⟩
  | client_commit calloc_ok seq =>
    have hb := fifo_handle_client_commit_barrier_set fifo calloc_ok seq
    refine ⟨(fifo_handle_client_commit fifo calloc_ok seq).1,
      (fifo_handle_client_commit fifo calloc_ok seq).2, rfl, hb.2, ?_, ?_⟩
    · intro h
      rw [hb.1, h]
    · intro h
      rw [fifo_handle_client_commit_disarmed fifo calloc_ok seq h]
      exact ⟨rfl, rfl⟩
  | commit =>
    refine ⟨surface_commit fifo, [], rfl, rfl, ?_, fun _ => ⟨?_, rfl⟩⟩
    · intro h
      rw [surface_commit_eq]; simp [h]
    · rw [surface_commit_eq]
  | cache_pending => exact ⟨_, _, rfl, rfl, fun h => h, fun _ => ⟨rfl, rfl⟩⟩
  | commit_cached cached =>
    refine ⟨surface_commit_cached fifo cached, [], rfl, rfl, ?_, fun _ => ⟨?_, rfl⟩⟩
    · intro h
      rw [surface_commit_cached_eq]; simp [h]
    · rw [surface_commit_cached_eq]
  | output_commit now => simp [client_action] at ha
  | timer now => simp [client_action] at ha
  | set_output output => simp [client_action] at ha
  | output_destroy => simp [client_action] at ha

theorem run_cons_some (fifo f1 : wlr_fifo_v1) (a : Action) (as : List Action)
    (evs1 : List Event) (hstep : step fifo a = some (f1, evs1)) :
    run fifo (a :: as) = (run f1 as).map (fun r => (r.1, evs1 ++ r.2)) := by
  simp only [run, hstep]
  cases run f1 as with
  | none => rfl
  | some r => rfl

theorem run_disarmed_queue_empty (as : List Action) :
    ∀ fifo : wlr_fifo_v1, fifo.barrier_set = false → fifo.commits = [] →
      (∀ a ∈ as, client_action a = true) →
      (∀ k f1 evs1, run fifo (as.take k) = some (f1, evs1) → f1.barrier_set = false) →
      ∃ f2 evs, run fifo as = some (f2, evs) ∧ f2.commits = [] ∧ locked evs = [] := by
  induction as with
  | nil => intro fifo _ hq _ _; exact ⟨fifo, [], rfl, hq, rfl⟩
  | cons a as ih =>
    intro fifo hdis hq hall hstay
    obtain ⟨f1, evs1, hstep, _, _, hkeep⟩ := client_step fifo a (hall a (List.mem_cons_self a as))
    obtain ⟨hc1, hl1⟩ := hkeep hdis
    have hdis1 : f1.barrier_set = false := by
      apply hstay 1 f1 (evs1 ++ [])
      rw [List.take_succ_cons, List.take_zero, run_cons_some fifo f1 a [] evs1 hstep]
      rfl
    have hstay1 : ∀ k f2 evs2, run f1 (as.take k) = some (f2, evs2) → f2.barrier_set = false := by
      intro k f2 evs2 hrun
      apply hstay (k + 1) f2 (evs1 ++ evs2)
      rw [List.take_succ_cons, run_cons_some fifo f1 a _ evs1 hstep, hrun]
      rfl
    obtain ⟨f2, evs2, hrun2, hc2, hl2⟩ :=
      ih f1 hdis1 (hc1.trans hq) (fun b hb => hall b (List.mem_cons_of_mem a hb)) hstay1
    refine ⟨f2, evs1 ++ evs2, ?_, hc2, ?_⟩
    · rw [run_cons_some fifo f1 a as evs1 hstep, hrun2]; rfl
    · rw [locked_append, hl1, hl2]; rfl

theorem run_armed_stays (as : List Action) :
    ∀ fifo : wlr_fifo_v1, fifo.barrier_set = true →
      (∀ a ∈ as, client_action a = true) →
      ∃ f2 evs, run fifo as = some (f2, evs) ∧ f2.barrier_set = true ∧ unlocked evs = [] := by
  induction as with
  | nil => intro fifo hb _; exact ⟨fifo, [], rfl, hb, rfl⟩
  | cons a as ih =>
    intro fifo hb hall
    obtain ⟨f1, evs1, hstep, hu1, hkeep, _⟩ :=
      client_step fifo a (hall a (List.mem_cons_self a as))
    obtain ⟨f2, evs2, hrun2, hb2, hu2⟩ :=
      ih f1 (hkeep hb) (fun b hb1 => hall b (List.mem_cons_of_mem a hb1))
    refine ⟨f2, evs1 ++ evs2, ?_, hb2, ?_⟩
    · rw [run_cons_some fifo f1 a as evs1 hstep, hrun2]; rfl
    · rw [unlocked_append, hu1, hu2]; rfl

/-- C14: for every engine state that is Disarmed with an empty queue, whatever
the surface fields and the pending request flags of the commit, the
client-commit handler creates no Queue Entry and locks nothing; and over any
sequence of client-side dispatches (requests, client commits, finalizes) after
each of which the engine is still Disarmed, the queue ends empty and nothing
was locked. -/
theorem disarmed_commit_not_queued (fifo : wlr_fifo_v1)
    (hdis : fifo.barrier_set = false) (hempty : fifo.commits = []) :
    (∀ surface pending calloc_ok seq,
      fifo_handle_client_commit { fifo with surface := surface, pending := pending }
          calloc_ok seq =
        ({ fifo with surface := surface, pending := pending }, [])) ∧
    (∀ as : List Action, (∀ a ∈ as, client_action a = true) →
      (∀ k f1 evs1, run fifo (as.take k) = some (f1, evs1) → f1.barrier_set = false) →
      ∃ f2 evs, run fifo as = some (f2, evs) ∧ f2.commits = [] ∧ locked evs = []) := by
  refine ⟨?_, ?_⟩
  · intro surface pending calloc_ok seq
    exact fifo_handle_client_commit_disarmed _ calloc_ok seq hdis
  · intro as hall hstay
    exact run_disarmed_queue_empty as fifo hdis hempty hall hstay

/-- Witness of C14: the fresh engine and two commits that ask to wait. -/
theorem disarmed_commit_not_queued_witness :
    (sample_fresh.barrier_set = false ∧ sample_fresh.commits = []) ∧
    fifo_handle_client_commit sample_disarmed_waiting true 5 = (sample_disarmed_waiting, []) ∧
    (run sample_fresh sample_wait_commits).map (fun r => (r.1.commits, locked r.2)) =
      some ([], []) :=
  ⟨⟨rfl, rfl⟩,
   (disarmed_commit_not_queued sample_fresh rfl rfl).1 sample_surface
      { set_barrier := false, wait_barrier := true } true 5,
   by decide⟩

/-- C15: a commit-finalize whose commit asks to set the barrier leaves the
engine Armed; neither the client-commit handler nor the commit-finalize
handler turns an Armed engine Disarmed, whatever the request flags; so from an
Armed engine any sequence of client-side dispatches (requests, client commits,
finalizes) ends Armed, and unlocks nothing. -/
theorem arm_persistence :
    (∀ fifo : wlr_fifo_v1, fifo.pending.set_barrier = true →
      (surface_commit fifo).barrier_set = true) ∧
    (∀ fifo : wlr_fifo_v1, fifo.current.set_barrier = true →
      (fifo_handle_commit fifo).barrier_set = true) ∧
    (∀ (fifo : wlr_fifo_v1) calloc_ok seq, fifo.barrier_set = true →
      (fifo_handle_client_commit fifo calloc_ok seq).1.barrier_set = true ∧
      (fifo_handle_commit fifo).barrier_set = true ∧
      (surface_commit fifo).barrier_set = true) ∧
    (∀ (fifo : wlr_fifo_v1) (as : List Action), fifo.barrier_set = true →
      (∀ a ∈ as, client_action a = true) →
      ∃ f2 evs, run fifo as = some (f2, evs) ∧ f2.barrier_set = true ∧ unlocked evs = []) := by
  refine ⟨?_, ?_, ?_, ?_⟩
  · intro fifo h
    rw [surface_commit_eq]; simp [h]
  · intro fifo h
    rw [fifo_handle_commit_eq]; simp [h]
  · intro fifo calloc_ok seq h
    refine ⟨?_, ?_, ?_⟩
    · rw [(fifo_handle_client_commit_barrier_set fifo calloc_ok seq).1, h]
    · rw [fifo_handle_commit_eq]; simp [h]
    · rw [surface_commit_eq]; simp [h]
  · intro fifo as h hall
    exact run_armed_stays as fifo h hall

/-- Witness of C15: the Armed engine and two commits that ask to wait: both are
queued and the engine is still Armed. -/
theorem arm_persistence_witness :
    (sample_armed.barrier_set = true ∧ ∀ a ∈ sample_wait_commits, client_action a = true) ∧
    (run sample_armed sample_wait_commits).map
        (fun r => (r.1.barrier_set, r.1.commits.map (fun c => c.seq))) = some (true, [1, 2]) ∧
    (∃ f2 evs, run sample_armed sample_wait_commits = some (f2, evs) ∧
      f2.barrier_set = true ∧ unlocked evs = []) :=
  ⟨⟨rfl, by decide⟩, by decide,
   arm_persistence.2.2.2 sample_armed sample_wait_commits rfl (by decide)⟩

/-! ## Scenario A -/

/-- C16: Scenario A. On the engine that `get_fifo` makes for a surface with
valid content and no output: commit 1 asking only to wait is not queued and the
engine is Disarmed after its finalize; commit 2 asking only to set the barrier
is not queued, the engine is still Disarmed after its client-commit step and
Armed after its finalize; commit 3 asking only to wait is queued, the queue
being exactly one entry with `barrier_pending` false. -/
theorem scenario_a :
    fifo_manager_handle_get_fifo false sample_surface none true true true =
      some (some sample_fresh, [Event.timer_update 25, Event.emit_new_fifo]) ∧
    commit_on_valid_buffer sample_fresh.surface = true ∧
    (run sample_fresh
        [Action.wait_barrier, Action.client_commit true 1, Action.commit]).map
        (fun r => (r.1.commits, r.1.barrier_set, r.2)) = some ([], false, []) ∧
    (run sample_fresh
        [Action.wait_barrier, Action.client_commit true 1, Action.commit,
         Action.set_barrier, Action.client_commit true 2]).map
        (fun r => (r.1.commits, r.1.barrier_set, r.2)) = some ([], false, []) ∧
    (run sample_fresh
        [Action.wait_barrier, Action.client_commit true 1, Action.commit,
         Action.set_barrier, Action.client_commit true 2, Action.commit]).map
        (fun r => (r.1.commits, r.1.barrier_set, r.2)) = some ([], true, []) ∧
    (run sample_fresh
        [Action.wait_barrier, Action.client_commit true 1, Action.commit,
         Action.set_barrier, Action.client_commit true 2, Action.commit,
         Action.wait_barrier, Action.client_commit true 3]).map
        (fun r => (r.1.commits, r.1.barrier_set, r.2)) =
      some ([{ barrier_pending := false, seq := 3 }], true, [Event.lock_pending 3]) := by
  decide

/-! ## The shape of an enqueue -/

/-- C17: whenever a client commit is queued (its handler locks the surface's
pending state), exactly one lock call is made and exactly one entry is appended
at the tail of the queue; the entry carries the token returned by that call and
has `barrier_pending` set if and only if `pending.set_barrier` is requested for
the same commit; the entries queued before keep their values and order, and the
armed flag and every other field are unchanged. -/
theorem enqueue_shape (fifo : wlr_fifo_v1) (calloc_ok : Bool) (seq : Nat)
    (hqueued : locked (fifo_handle_client_commit fifo calloc_ok seq).2 ≠ []) :
    fifo_handle_client_commit fifo calloc_ok seq =
      ({ fifo with commits := fifo.commits ++
            [{ barrier_pending := fifo.pending.set_barrier, seq := seq }] },
       [Event.lock_pending seq]) ∧
    (fifo_handle_client_commit fifo calloc_ok seq).1.commits.length = fifo.commits.length + 1 ∧
    (fifo_handle_client_commit fifo calloc_ok seq).1.commits.take fifo.commits.length =
      fifo.commits ∧
    (fifo_handle_client_commit fifo calloc_ok seq).1.commits.drop fifo.commits.length =
      [{ barrier_pending := fifo.pending.set_barrier, seq := seq }] ∧
    (fifo_handle_client_commit fifo calloc_ok seq).1.barrier_set = fifo.barrier_set := by
  have h : fifo_handle_client_commit fifo calloc_ok seq =
      ({ fifo with commits := fifo.commits ++
            [{ barrier_pending := fifo.pending.set_barrier, seq := seq }] },
       [Event.lock_pending seq]) := by
    revert hqueued
    cases hv : commit_on_valid_buffer fifo.surface <;> cases hw : fifo.pending.wait_barrier <;>
      cases hb : fifo.barrier_set <;> cases calloc_ok <;>
      simp [fifo_handle_client_commit, fifo_do_queue_commit, hv, hw, hb, locked]
  rw [h]
  refine ⟨rfl, ?_, ?_, ?_, rfl⟩
  · simp
  · simp
  · simp

/-- Witness of C17: the Armed engine with one queued entry; the commit asks to
wait and to set the barrier and gets token 8. -/
theorem enqueue_shape_witness :
    locked (fifo_handle_client_commit sample_armed_queued true 8).2 ≠ [] ∧
    (fifo_handle_client_commit sample_armed_queued true 8).1.commits =
      [{ barrier_pending := false, seq := 7 }, { barrier_pending := true, seq := 8 }] :=
  ⟨by decide,
   congrArg (fun r => r.1.commits) (enqueue_shape sample_armed_queued true 8 (by decide)).1⟩

/-! ## Commit-finalize -/

/-- C18: the state move sets the destination to the source flags and resets the
source to empty; applied to the engine (`current` from `pending`) and followed
by the finalize handler, the engine ends Armed if and only if it was Armed or
the moved flags ask to set the barrier; the handler is idempotent, and neither
the queue nor any other field changes. -/
theorem commit_finalize_transition (fifo : wlr_fifo_v1)
    (dst src : wlr_fifo_v1_fifo_state) :
    surface_synced_move_state dst src = (src, fifo_state_zero) ∧
    fifo_handle_commit fifo =
      { fifo with barrier_set := fifo.barrier_set || fifo.current.set_barrier } ∧
    ((fifo_handle_commit fifo).barrier_set = true ↔
      (fifo.barrier_set = true ∨ fifo.current.set_barrier = true)) ∧
    fifo_handle_commit (fifo_handle_commit fifo) = fifo_handle_commit fifo ∧
    surface_commit fifo =
      { fifo with current := fifo.pending,
                  pending := fifo_state_zero,
                  barrier_set := fifo.barrier_set || fifo.pending.set_barrier } ∧
    (surface_commit fifo).commits = fifo.commits := by
  refine ⟨rfl, fifo_handle_commit_eq fifo, ?_, ?_, surface_commit_eq fifo, ?_⟩
  · rw [fifo_handle_commit_eq]; simp
  · rw [fifo_handle_commit_eq, fifo_handle_commit_eq]
    cases fifo.barrier_set <;> cases fifo.current.set_barrier <;> rfl
  · rw [surface_commit_eq]

/-! ## A queued commit implies an armed barrier -/

theorem fifo_signal_barrier_queue_armed (fifo : wlr_fifo_v1)
    (hinv : fifo.commits ≠ [] → fifo.barrier_set = true) :
    (fifo_signal_barrier fifo).1.commits ≠ [] → (fifo_signal_barrier fifo).1.barrier_set = true := by
  rw [fifo_signal_barrier_eq]
  intro hne
  cases hany : fifo.commits.any (fun c => c.barrier_pending) with
  | false => exact absurd (remaining_entries_of_no_barrier _ hany) hne
  | true =>
    have hq : fifo.commits ≠ [] := by
      intro h0
      rw [h0] at hany
      simp at hany
    simp [hinv hq]

theorem fifo_reset_commits (fifo f1 : wlr_fifo_v1) (evs : List Event)
    (h : fifo_reset fifo = some (f1, evs)) : f1.commits = [] := by
  unfold fifo_reset at h
  simp only at h
  split at h
  · exact absurd h (by simp)
  · rename_i f2 hf2
    simp only [Option.some.injEq, Prod.mk.injEq] at h
    rw [← h.1]
    split at hf2
    · split at hf2
      · exact absurd hf2 (by simp)
      · split at hf2
        · exact absurd hf2 (by simp)
        · simp only [Option.some.injEq] at hf2
          rw [← hf2]
    · simp only [Option.some.injEq] at hf2
      rw [← hf2]

theorem step_queue_armed (fifo f1 : wlr_fifo_v1) (a : Action) (evs : List Event)
    (hstep : step fifo a = some (f1, evs))
    (hinv : fifo.commits ≠ [] → fifo.barrier_set = true) :
    f1.commits ≠ [] → f1.barrier_set = true := by
  cases a with
  | surface_changed surface =>
    simp only [step, Option.some.injEq, Prod.mk.injEq] at hstep
    rw [← hstep.1]; exact hinv
  | set_barrier =>
    simp only [step, Option.some.injEq, Prod.mk.injEq] at hstep
    rw [← hstep.1]; exact hinv
  | wait_barrier =>
    simp only [step, Option.some.injEq, Prod.mk.injEq] at hstep
    rw [← hstep.1]; exact hinv
  | client_commit calloc_ok seq =>
    simp only [step, Option.some.injEq] at hstep
    have hb := (fifo_handle_client_commit_barrier_set fifo calloc_ok seq).1
    rw [hstep] at hb
    simp only at hb
    intro hne
    rw [hb]
    cases hbs : fifo.barrier_set with
    | true => rfl
    | false =>
      have hd := fifo_handle_client_commit_disarmed fifo calloc_ok seq hbs
      rw [hstep] at hd
      simp only [Prod.mk.injEq] at hd
      rw [hd.1] at hne
      rw [← hbs]
      exact hinv hne
  | commit =>
    simp only [step, Option.some.injEq, Prod.mk.injEq] at hstep
    rw [← hstep.1, surface_commit_eq]
    intro hne
    simp [hinv hne]
  | cache_pending =>
    simp only [step, Option.some.injEq, Prod.mk.injEq] at hstep
    rw [← hstep.1]; exact hinv
  | commit_cached cached =>
    simp only [step, Option.some.injEq, Prod.mk.injEq] at hstep
    rw [← hstep.1, surface_commit_cached_eq]
    intro hne
    simp [hinv hne]
  | output_commit now =>
    simp only [step] at hstep
    split at hstep
    · simp only [Option.some.injEq] at hstep
      have h1 : f1 = (fifo_handle_output_commit fifo now).1 := by rw [hstep]
      rw [h1]
      unfold fifo_handle_output_commit
      cases hbuf : fifo.surface.buffer with
      | false => simpa using hinv
      | true =>
        cases hbs : fifo.barrier_set with
        | false => simpa [hbs] using hinv
        | true => simpa using fifo_signal_barrier_queue_armed fifo hinv
    · simp only [Option.some.injEq, Prod.mk.injEq] at hstep
      rw [← hstep.1]; exact hinv
  | timer now =>
    simp only [step] at hstep
    split at hstep
    · simp only [Option.some.injEq] at hstep
      have h1 : f1 = (handle_timer fifo now).1 := by rw [hstep]
      rw [h1, handle_timer_eq]
      split
      · exact fifo_signal_barrier_queue_armed fifo hinv
      · exact hinv
    · simp only [Option.some.injEq, Prod.mk.injEq] at hstep
      rw [← hstep.1]; exact hinv
  | set_output output =>
    simp only [step, wlr_fifo_v1_set_output] at hstep
    cases hr : fifo_reset fifo with
    | none => simp [hr] at hstep
    | some r =>
      obtain ⟨f2, evs2⟩ := r
      have hc := fifo_reset_commits fifo f2 evs2 hr
      cases output with
      | none =>
        simp only [hr, Option.some.injEq, Prod.mk.injEq] at hstep
        rw [← hstep.1]
        intro hne
        exact absurd hc hne
      | some o =>
        simp only [hr, Option.some.injEq, Prod.mk.injEq] at hstep
        rw [← hstep.1]
        intro hne
        exact absurd hc hne
  | output_destroy =>
    simp only [step] at hstep
    split at hstep
    · simp only [fifo_handle_output_destroy] at hstep
      cases hr : fifo_reset fifo with
      | none => simp [hr] at hstep
      | some r =>
        obtain ⟨f2, evs2⟩ := r
        have hc := fifo_reset_commits fifo f2 evs2 hr
        simp only [hr, Option.some.injEq, Prod.mk.injEq] at hstep
        rw [← hstep.1]
        intro hne
        exact absurd hc hne
    · simp only [Option.some.injEq, Prod.mk.injEq] at hstep
      rw [← hstep.1]; exact hinv

theorem run_queue_armed (as : List Action) :
    ∀ (fifo f1 : wlr_fifo_v1) (evs : List Event), run fifo as = some (f1, evs) →
      (fifo.commits ≠ [] → fifo.barrier_set = true) →
      f1.commits ≠ [] → f1.barrier_set = true := by
  induction as with
  | nil =>
    intro fifo f1 evs hrun hinv
    simp only [run, Option.some.injEq, Prod.mk.injEq] at hrun
    rw [← hrun.1]; exact hinv
  | cons a as ih =>
    intro fifo f1 evs hrun hinv
    cases hs : step fifo a with
    | none => simp [run, hs] at hrun
    | some r =>
      obtain ⟨f2, evs2⟩ := r
      rw [run_cons_some fifo f2 a as evs2 hs] at hrun
      cases hr : run f2 as with
      | none => simp [hr] at hrun
      | some r3 =>
        obtain ⟨f3, evs3⟩ := r3
        simp only [hr, Option.map_some', Option.some.injEq, Prod.mk.injEq] at hrun
        rw [← hrun.1]
        exact ih f2 f3 evs3 hr (step_queue_armed fifo f2 a evs2 hs hinv)

/-- C19: in every state reached from a freshly created engine (its queue is
empty, which is all that is used of it) by any sequence of dispatches —
requests, client commits, finalizes, refresh-complete signals, timer expiries,
`set_output` and output-destroyed — a non-empty queue implies that the engine
is Armed; equivalently a Disarmed engine has an empty queue. -/
theorem queue_nonempty_implies_armed (fifo0 fifo : wlr_fifo_v1) (as : List Action)
    (evs : List Event) (hempty : fifo0.commits = [])
    (hrun : run fifo0 as = some (fifo, evs)) :
    (fifo.commits ≠ [] → fifo.barrier_set = true) ∧
    (fifo.barrier_set = false → fifo.commits = []) := by
  have h := run_queue_armed as fifo0 fifo evs hrun (fun hne => absurd hempty hne)
  refine ⟨h, ?_⟩
  intro hb
  by_contra hne
  rw [h hne] at hb
  exact absurd hb (by simp)

/-- Witness of C19: the sample trace from the fresh engine ends Armed with
token 5 queued. -/
theorem queue_nonempty_implies_armed_witness :
    (sample_fresh.barrier_set = false ∧ sample_fresh.commits = [] ∧
      run sample_fresh sample_trace =
        some (sample_trace_end,
          [Event.lock_pending 3, Event.lock_pending 4, Event.lock_pending 5,
           Event.unlock_cached 3, Event.unlock_cached 4, Event.timer_update 25])) ∧
    sample_trace_end.commits ≠ [] ∧ sample_trace_end.barrier_set = true :=
  ⟨⟨rfl, rfl, by decide⟩, by decide,
   (queue_nonempty_implies_armed sample_fresh sample_trace_end sample_trace
      [Event.lock_pending 3, Event.lock_pending 4, Event.lock_pending 5,
       Event.unlock_cached 3, Event.unlock_cached 4, Event.timer_update 25]
      rfl (by decide)).1 (by decide)⟩

/-! ## Progress of Release -/

theorem remaining_entries_countP (q : List fifo_commit)
    (hany : q.any (fun c => c.barrier_pending) = true) :
    (remaining_entries q).countP (fun c => c.barrier_pending) + 1 =
      q.countP (fun c => c.barrier_pending) := by
  induction q with
  | nil => simp at hany
  | cons c rest ih =>
    cases hc : c.barrier_pending with
    | true => simp [remaining_entries, List.dropWhile_cons, hc, List.countP_cons]
    | false =>
      have hrest : rest.any (fun c => c.barrier_pending) = true := by
        simpa [hc] using hany
      have h := ih hrest
      simp only [remaining_entries, List.dropWhile_cons, hc, List.countP_cons] at h ⊢
      simpa using h

theorem any_false_of_countP_zero (q : List fifo_commit)
    (h0 : q.countP (fun c => c.barrier_pending) = 0) :
    q.any (fun c => c.barrier_pending) = false := by
  induction q with
  | nil => rfl
  | cons c rest ih =>
    cases hc : c.barrier_pending with
    | true => simp [List.countP_cons, hc] at h0
    | false =>
      have hrest : rest.countP (fun c => c.barrier_pending) = 0 := by
        simpa [List.countP_cons, hc] using h0
      simp [hc, ih hrest]

theorem signal_rounds_idle (n : Nat) :
    ∀ fifo : wlr_fifo_v1, fifo.commits = [] → fifo.barrier_set = false →
      (signal_rounds n fifo).1.commits = [] ∧ (signal_rounds n fifo).1.barrier_set = false := by
  induction n with
  | zero => intro fifo hq hb; exact ⟨hq, hb⟩
  | succ n ih =>
    intro fifo hq hb
    simp only [signal_rounds]
    apply ih
    · rw [fifo_signal_barrier_eq]; simp [hq, remaining_entries]
    · rw [fifo_signal_barrier_eq]; simp [hb]

theorem signal_rounds_drains (n : Nat) :
    ∀ fifo : wlr_fifo_v1, fifo.commits.countP (fun c => c.barrier_pending) + 1 ≤ n →
      (signal_rounds n fifo).1.commits = [] ∧ (signal_rounds n fifo).1.barrier_set = false := by
  induction n with
  | zero => intro fifo h; omega
  | succ n ih =>
    intro fifo h
    simp only [signal_rounds]
    cases hany : fifo.commits.any (fun c => c.barrier_pending) with
    | false =>
      apply signal_rounds_idle
      · rw [fifo_signal_barrier_eq]
        exact remaining_entries_of_no_barrier _ hany
      · rw [fifo_signal_barrier_eq]; simp [hany]
    | true =>
      apply ih
      rw [fifo_signal_barrier_commits]
      have hc := remaining_entries_countP fifo.commits hany
      omega

theorem signal_rounds_unlocked (n : Nat) :
    ∀ fifo : wlr_fifo_v1,
      unlocked (signal_rounds n fifo).2 ++ (signal_rounds n fifo).1.commits.map (fun c => c.seq) =
        fifo.commits.map (fun c => c.seq) := by
  induction n with
  | zero => intro fifo; simp [signal_rounds, unlocked]
  | succ n ih =>
    intro fifo
    simp only [signal_rounds]
    rw [unlocked_append, List.append_assoc, ih, fifo_signal_barrier_events, unlocked_map_unlock,
      fifo_signal_barrier_commits, ← List.map_append, released_append_remaining]

/-- C20: Release is a total function of the queue; one round unlocks as many
entries as it removes and, on a non-empty queue, removes at least one; and a
queue holding r entries whose `barrier_pending` is set is empty, with the
engine Disarmed and every token unlocked once in queue order, after any number
n ≥ r + 1 of consecutive Release rounds. -/
theorem release_progress (fifo : wlr_fifo_v1) :
    (fifo_signal_barrier fifo).1.commits.length + (unlocked (fifo_signal_barrier fifo).2).length =
      fifo.commits.length ∧
    (fifo.commits ≠ [] →
      (fifo_signal_barrier fifo).1.commits.length < fifo.commits.length) ∧
    (∀ n, fifo.commits.countP (fun c => c.barrier_pending) + 1 ≤ n →
      (signal_rounds n fifo).1.commits = [] ∧
      (signal_rounds n fifo).1.barrier_set = false ∧
      unlocked (signal_rounds n fifo).2 = fifo.commits.map (fun c => c.seq)) := by
  have hsplit := congrArg List.length (released_append_remaining fifo.commits)
  rw [List.length_append] at hsplit
  refine ⟨?_, ?_, ?_⟩
  · rw [fifo_signal_barrier_events, unlocked_map_unlock, fifo_signal_barrier_commits,
      List.length_map]
    omega
  · intro hne
    rw [fifo_signal_barrier_commits]
    cases hq : fifo.commits with
    | nil => exact absurd hq hne
    | cons c rest =>
      have hpos := released_entries_length_pos c rest
      rw [hq] at hsplit
      omega
  · intro n hn
    obtain ⟨h1, h2⟩ := signal_rounds_drains n fifo hn
    refine ⟨h1, h2, ?_⟩
    have h3 := signal_rounds_unlocked n fifo
    rw [h1] at h3
    simpa using h3

/-- Witness of C20: a queue of five entries, two of them re-arming: two rounds
empty the queue but leave the engine Armed, the third round disarms it. -/
theorem release_progress_witness :
    sample_two_barriers.commits.countP (fun c => c.barrier_pending) = 2 ∧
    ((signal_rounds 2 sample_two_barriers).1.commits = [] ∧
      (signal_rounds 2 sample_two_barriers).1.barrier_set = true) ∧
    ((signal_rounds 3 sample_two_barriers).1.commits = [] ∧
      (signal_rounds 3 sample_two_barriers).1.barrier_set = false ∧
      unlocked (signal_rounds 3 sample_two_barriers).2 =
        sample_two_barriers.commits.map (fun c => c.seq)) :=
  ⟨by decide, by decide, (release_progress sample_two_barriers).2.2 3 (by decide)⟩

/-! ## The lock/unlock balance over the life of an engine -/

end Fifo
